import Mathlib

/-!
# Verification of the LyreHero pitch-detection and tutor core

This file gives a shallow embedding, in Lean 4, of the core of the LyreHero
application (a real-time monophonic pitch detector and note tutor for a
19-string lyre harp) and proves, or refutes, a fixed list of claims about it.

The embedding follows the TypeScript source:

* `src/services/audioEngine.ts` — the `AudioEngine` class: the NSDF pitch
  estimator, the cents-based lyre-note classifier, the adaptive noise floor,
  the temporal smoother and the per-frame gating logic of `detectPitch`;
* `src/components/TutorInterface.tsx` — the tutor state machine
  (`handleCorrectNote`, `checkPitch`) and the gain controls;
* the note-frequency table (`NOTE_FREQUENCIES` in `constants.ts`).

Modelling conventions:

* JavaScript floating-point numbers are modelled as exact rationals (`ℚ`);
  timestamps (`Date.now()`) as integers (`ℤ`).
* The source compares cent distances `|1200·log2(f/g)|`.  For positive `f`,
  `g` this quantity is a strictly increasing function of
  `centsKey f g = max (f/g) (g/f)`, so the embedding stores and compares
  `centsKey` values instead; the comparison with the 50-cent tolerance becomes
  the exact rational test `2 < centsKey f g ^ 24` (since
  `|1200·log2 r| > 50 ↔ max(r, r⁻¹) > 2^(1/24)`).  Theorems
  `centsKey_lt_iff_cents_lt` and `centsKey_pow_iff_cents_gt_fifty` below prove
  this order-isomorphism against the real-log formulation, so every branch the
  embedding takes agrees with the branch the source takes.
* Quantities that the source derives from the raw audio buffers through
  transcendental functions (the RMS square root, the spectral flatness, the
  harmonic-presence scan of the dB spectrum) enter the per-frame step as
  components of `FrameInput`; the decision logic consuming them is embedded
  verbatim.  The NSDF estimator itself is exact rational arithmetic and is
  embedded in full.
-/

namespace LyreHero

/-- Frequencies in the source table are decimal literals with two fractional
digits; `hz n` is the exact rational `n / 100`. -/
def hz (n : ℤ) : ℚ := mkRat n 100

/-- The note-frequency table from `constants.ts` (`NOTE_FREQUENCIES`), as an
association list in source order.  Equal temperament, A4 = 440 Hz, covering
C3..D6 with both sharp and flat spellings. -/
def NOTE_FREQUENCIES : List (String × ℚ) :=
  [("C3", hz 13081), ("C#3", hz 13859), ("Db3", hz 13859),
   ("D3", hz 14683), ("D#3", hz 15556), ("Eb3", hz 15556),
   ("E3", hz 16481),
   ("F3", hz 17461), ("F#3", hz 18500), ("Gb3", hz 18500),
   ("G3", hz 19600), ("G#3", hz 20765), ("Ab3", hz 20765),
   ("A3", hz 22000), ("A#3", hz 23308), ("Bb3", hz 23308),
   ("B3", hz 24694),
   ("C4", hz 26163), ("C#4", hz 27718), ("Db4", hz 27718),
   ("D4", hz 29366), ("D#4", hz 31113), ("Eb4", hz 31113),
   ("E4", hz 32963),
   ("F4", hz 34923), ("F#4", hz 36999), ("Gb4", hz 36999),
   ("G4", hz 39200), ("G#4", hz 41530), ("Ab4", hz 41530),
   ("A4", hz 44000), ("A#4", hz 46616), ("Bb4", hz 46616),
   ("B4", hz 49388),
   ("C5", hz 52325), ("C#5", hz 55437), ("Db5", hz 55437),
   ("D5", hz 58733), ("D#5", hz 62225), ("Eb5", hz 62225),
   ("E5", hz 65925),
   ("F5", hz 69846), ("F#5", hz 73999), ("Gb5", hz 73999),
   ("G5", hz 78399), ("G#5", hz 83061), ("Ab5", hz 83061),
   ("A5", hz 88000), ("A#5", hz 93233), ("Bb5", hz 93233),
   ("B5", hz 98777),
   ("C6", hz 104650), ("C#6", hz 110873), ("Db6", hz 110873),
   ("D6", hz 117466)]

/-- Modelled from the spec: the `LYRE_NOTES` constant is imported by
`audioEngine.ts` from `../constants`, a module whose definition of this
constant is not part of the source tree; the spec fixes the lyre set as the
ordered sequence of the 19 diatonic strings F3..C6 (no sharps or flats). -/
def LYRE_NOTES : List String :=
  ["F3", "G3", "A3", "B3", "C4", "D4", "E4", "F4", "G4", "A4",
   "B4", "C5", "D5", "E5", "F5", "G5", "A5", "B5", "C6"]

/-- Lower end of the lyre band (`LYRE_MIN_FREQ`): slightly below F3. -/
def LYRE_MIN_FREQ : ℚ := 165

/-- Upper end of the lyre band (`LYRE_MAX_FREQ`): slightly above C6. -/
def LYRE_MAX_FREQ : ℚ := 1100

/-- Exact order-isomorphic stand-in for the cent distance between `f` and a
table frequency `g`: the source compares values `|1200·log2(f/g)|`, and for
positive arguments those compare exactly like `max (f/g) (g/f)`. -/
def centsKey (f g : ℚ) : ℚ := max (f / g) (g / f)

/-- One iteration of the classifier's loop over the lyre notes: skip notes
missing from the table (the source's `if (!noteFreq) continue`, which also
skips a zero entry since `0` is falsy), otherwise replace the running minimum
exactly when this note's cent distance is strictly smaller.  The accumulator
`none` plays the role of the source's initial `minCents = Infinity`. -/
def classifyStep (frequency : ℚ) (acc : Option (ℚ × String)) (noteName : String) :
    Option (ℚ × String) :=
  match List.lookup noteName NOTE_FREQUENCIES with
  | none => acc
  | some noteFreq =>
    if noteFreq = 0 then acc else
    let m := centsKey frequency noteFreq
    match acc with
    | none => some (m, noteName)
    | some (mMin, _) => if m < mMin then some (m, noteName) else acc

/-- The classifier `frequencyToLyreNote` of `audioEngine.ts` (lines 441-468):
reject frequencies outside `[LYRE_MIN_FREQ, LYRE_MAX_FREQ]`, otherwise take
the lyre note minimising the cent distance (first-seen note wins ties, the
running minimum is replaced only on strictly smaller distance), and return
`""` if the minimum exceeds the 50-cent tolerance.  The source's tolerance
test `minCents > 50` is the exact rational test `2 < key^24`. -/
def frequencyToLyreNote (frequency : ℚ) : String :=
  if frequency < LYRE_MIN_FREQ ∨ LYRE_MAX_FREQ < frequency then "" else
  match LYRE_NOTES.foldl (classifyStep frequency) none with
  | none => ""
  | some (mMin, bestNote) => if 2 < mMin ^ 24 then "" else bestNote

/-- The engine's `setGain` (`audioEngine.ts` lines 140-144): if the gain node
exists, its value is set to the argument, with no clamping; if the engine is
not started there is no gain node and the call is a no-op.  The gain node is
modelled by its current value, `none` when absent. -/
def setGain (gainNode : Option ℚ) (value : ℚ) : Option ℚ :=
  match gainNode with
  | none => none
  | some _ => some value

/-- What the claim says `setGain` does: set the gain to the argument clamped
to `[0.5, 5.0]`.  Stated from the spec's words for comparison with the
source's `setGain`. -/
def setGainClampedSpec (gainNode : Option ℚ) (value : ℚ) : Option ℚ :=
  match gainNode with
  | none => none
  | some _ => some (max (1/2) (min value 5))

/-- The UI gain-increase handler (`TutorInterface.tsx`, `increaseGain`):
`min(gain + 0.5, 5.0)`. -/
def increaseGain (gain : ℚ) : ℚ := min (gain + 1/2) 5

/-- The UI gain-decrease handler (`TutorInterface.tsx`, `decreaseGain`):
`max(gain - 0.5, 0.5)`. -/
def decreaseGain (gain : ℚ) : ℚ := max (gain - 1/2) (1/2)

/-! ## The engine state and the per-frame step of `detectPitch` -/

/-- The mutable state of the `AudioEngine` class that `detectPitch` reads and
writes: the two public thresholds, the two temporal-smoothing histories, and
the adaptive noise floor with its sample ring. -/
structure EngineState where
  rmsThreshold : ℚ
  correlationThreshold : ℚ
  noteHistory : List String
  frequencyHistory : List ℚ
  noiseFloor : ℚ
  noiseFloorSamples : List ℚ
  deriving DecidableEq, Repr

/-- The engine state at construction time: field initialisers of the
`AudioEngine` class (`rmsThreshold = 0.002`, `correlationThreshold = 0.3`,
empty histories, `noiseFloor = 0.001`, no noise samples). -/
def initialEngineState : EngineState :=
  { rmsThreshold := 1/500
    correlationThreshold := 3/10
    noteHistory := []
    frequencyHistory := []
    noiseFloor := 1/1000
    noiseFloorSamples := [] }

/-- The per-frame measurements that `detectPitch` derives from the audio
buffers before its decision logic runs: the window RMS (a square root in the
source), the zero-crossing rate, the spectral flatness (computed from dB
magnitudes through `10^(x/10)`, `log` and `exp`), the NSDF frequency and
clarity estimate, and the harmonic-presence flag from the dB spectrum scan.
The transcendental feature extractors cannot be expressed as computable
rational functions, so the step takes their values as inputs; every decision
made from them is embedded verbatim. -/
structure FrameInput where
  rms : ℚ
  zcr : ℚ
  spectralFlatness : ℚ
  frequency : ℚ
  clarity : ℚ
  hasHarmonics : Bool
  deriving DecidableEq, Repr

/-- The record returned by `detectPitch`. -/
structure DetectionFrame where
  note : String
  frequency : ℚ
  clarity : ℚ
  volume : ℚ
  deriving DecidableEq, Repr

/-- `updateNoiseFloor` (`audioEngine.ts` lines 267-278): during quiet periods
(`rms < noiseFloor * 3`) or while fewer than 10 samples have been collected,
push the RMS into the sample ring (dropping the oldest entry beyond 50),
re-sort, and set the noise floor to the entry at index `⌊n/2⌋`; the source's
`sorted[...] || 0.001` makes the floor `0.001` whenever that entry is `0` or
missing. -/
def updateNoiseFloor (s : EngineState) (rms : ℚ) : EngineState :=
  if rms < s.noiseFloor * 3 ∨ s.noiseFloorSamples.length < 10 then
    let samples1 := s.noiseFloorSamples ++ [rms]
    let samples2 := if 50 < samples1.length then samples1.tail else samples1
    let sorted := samples2.insertionSort (· ≤ ·)
    let m := sorted.getD (samples2.length / 2) 0
    { s with noiseFloorSamples := samples2
             noiseFloor := if m = 0 then 1/1000 else m }
  else s

/-- Association-list counter used to model the `Record<string, number>` built
by `getMostConsistentNote`: incrementing an existing key keeps its position,
a new key is appended, matching JavaScript object key insertion order. -/
def bumpCount : List (String × ℕ) → String → List (String × ℕ)
  | [], k => [(k, 1)]
  | (k', c) :: rest, k =>
    if k' = k then (k', c + 1) :: rest else (k', c) :: bumpCount rest k

/-- The count table of `getMostConsistentNote`: one pass over the history,
counting only non-empty notes. -/
def buildCounts (history : List String) : List (String × ℕ) :=
  history.foldl (fun acc note => if note ≠ "" then bumpCount acc note else acc) []

/-- One step of the max-count scan of `getMostConsistentNote`: replace the
running best only on strictly larger count. -/
def maxStep (mb : ℕ × String) (e : String × ℕ) : ℕ × String :=
  if mb.1 < e.2 then (e.2, e.1) else mb

/-- The max-count scan of `getMostConsistentNote` over `Object.entries`:
strict improvement only, so the first key reaching the maximal count wins. -/
def maxCountEntry (counts : List (String × ℕ)) : ℕ × String :=
  counts.foldl maxStep (0, "")

/-- `getMostConsistentNote` (`audioEngine.ts` lines 300-324) as a function of
the note history: return `""` when fewer than `REQUIRED_CONSISTENCY = 3`
entries exist, otherwise the most frequent non-empty note provided its count
reaches 3, and `""` otherwise. -/
def getMostConsistentNote (history : List String) : String :=
  if history.length < 3 then "" else
  let mb := maxCountEntry (buildCounts history)
  if 3 ≤ mb.1 then mb.2 else ""

/-- `getMedianFrequency` (`audioEngine.ts` lines 329-333): `0` for an empty
history, otherwise the element at index `⌊n/2⌋` of the ascending sort. -/
def getMedianFrequency (history : List ℚ) : ℚ :=
  if history.length = 0 then 0 else
  (history.insertionSort (· ≤ ·)).getD (history.length / 2) 0

/-- The effective RMS gate of `detectPitch` (line 210):
`max(rmsThreshold, noiseFloor * 2)`. -/
def effectiveThreshold (s : EngineState) : ℚ :=
  max s.rmsThreshold (s.noiseFloor * 2)

/-- The raw note of the current frame (`detectPitch` step 7, lines 208-229):
non-empty only when the RMS clears the effective gate, the clarity clears the
correlation threshold, the zero-crossing rate does not indicate noise, the
frequency lies in the lyre band, and the frame is tonal or has harmonics; in
that case the classifier runs on the NSDF frequency.  The state argument is
the engine state *before* the frame; the gate reads the noise floor updated
by this frame's RMS, as the source does. -/
def rawNoteOf (s : EngineState) (inp : FrameInput) : String :=
  let s1 := updateNoiseFloor s inp.rms
  if effectiveThreshold s1 < inp.rms ∧
     s1.correlationThreshold < inp.clarity ∧
     ¬ (3/10 < inp.zcr) ∧
     (LYRE_MIN_FREQ ≤ inp.frequency ∧ inp.frequency ≤ LYRE_MAX_FREQ) ∧
     (inp.spectralFlatness < 3/10 ∨ inp.hasHarmonics) then
    frequencyToLyreNote inp.frequency
  else ""

/-- One call of `detectPitch` (`audioEngine.ts` lines 146-262) in the ready
state: update the noise floor from the frame's RMS, compute the raw note,
push raw note and NSDF frequency into the two histories (shifting both when
the note history exceeds `HISTORY_SIZE = 5`), and return the smoothed stable
note, the median frequency, and the frame's clarity and RMS. -/
def detectPitchStep (s : EngineState) (inp : FrameInput) :
    EngineState × DetectionFrame :=
  let s1 := updateNoiseFloor s inp.rms
  let rawNote := rawNoteOf s inp
  let noteHistory1 := s1.noteHistory ++ [rawNote]
  let frequencyHistory1 := s1.frequencyHistory ++ [inp.frequency]
  let trim := 5 < noteHistory1.length
  let noteHistory2 := if trim then noteHistory1.tail else noteHistory1
  let frequencyHistory2 := if trim then frequencyHistory1.tail else frequencyHistory1
  let s2 := { s1 with noteHistory := noteHistory2
                      frequencyHistory := frequencyHistory2 }
  (s2, { note := getMostConsistentNote noteHistory2
         frequency := getMedianFrequency frequencyHistory2
         clarity := inp.clarity
         volume := inp.rms })

/-- A sequence of `detectPitch` calls from a given engine state, returning the
final state and the frames in order. -/
def runEngine : EngineState → List FrameInput → EngineState × List DetectionFrame
  | s, [] => (s, [])
  | s, inp :: rest =>
    let step := detectPitchStep s inp
    let next := runEngine step.1 rest
    (next.1, step.2 :: next.2)

/-! ## The NSDF pitch estimator -/

/-- `minPeriod` of `detectPitchNSDF`: `Math.floor(sampleRate / MAX_FREQ)` with
`MAX_FREQ = 1200`.  (`Nat.toNat` of the floor agrees with the source for the
non-negative sample rates an audio context provides.) -/
def minPeriodOf (sampleRate : ℚ) : ℕ := (sampleRate / 1200).floor.toNat

/-- `maxPeriod` of `detectPitchNSDF`: `Math.floor(sampleRate / MIN_FREQ)` with
`MIN_FREQ = 100`. -/
def maxPeriodOf (sampleRate : ℚ) : ℕ := (sampleRate / 100).floor.toNat

/-- The NSDF value for one candidate period (`detectPitchNSDF` inner loop,
`audioEngine.ts` lines 492-509): autocorrelation and energies over
`compareLength = min(analysisSize - period, 512)` samples, then
`2·acf / (energy1 + energy2)`, or `0` when the energy sum is at most `1e-7`. -/
def nsdfValue (buffer : List ℚ) (analysisSize period : ℕ) : ℚ :=
  let compareLength := min (analysisSize - period) 512
  let idx := List.range compareLength
  let acf := idx.foldl (fun a i => a + buffer.getD i 0 * buffer.getD (i + period) 0) 0
  let energy1 := idx.foldl (fun a i => a + buffer.getD i 0 * buffer.getD i 0) 0
  let energy2 :=
    idx.foldl (fun a i => a + buffer.getD (i + period) 0 * buffer.getD (i + period) 0) 0
  let energySum := energy1 + energy2
  if 1/10000000 < energySum then 2 * acf / energySum else 0

/-- The NSDF array: one value per period from `minPeriod` while
`period ≤ maxPeriod && period < analysisSize`, with
`analysisSize = min(2048, buffer.length)`. -/
def nsdfList (buffer : List ℚ) (sampleRate : ℚ) : List ℚ :=
  let analysisSize := min 2048 buffer.length
  let minPeriod := minPeriodOf sampleRate
  let upper := min (maxPeriodOf sampleRate + 1) analysisSize
  (List.range' minPeriod (upper - minPeriod)).map (nsdfValue buffer analysisSize)

/-- A refined NSDF peak after parabolic interpolation. -/
structure NsdfPeak where
  period : ℚ
  value : ℚ
  deriving DecidableEq, Repr

/-- The peak test and parabolic interpolation at index `i` of the NSDF array
(`audioEngine.ts` lines 516-532): a strict local maximum above
`PEAK_THRESHOLD = 0.2` yields a refined period `minPeriod + i + δ` and refined
value `β - 0.25·(α - γ)·δ` with `δ = 0.5·(α - γ)/(α - 2β + γ)`. -/
def peakAt (nsdf : List ℚ) (minPeriod : ℕ) (i : ℕ) : Option NsdfPeak :=
  let alpha := nsdf.getD (i - 1) 0
  let beta := nsdf.getD i 0
  let gamma := nsdf.getD (i + 1) 0
  if alpha < beta ∧ gamma < beta ∧ 1/5 < beta then
    let peakOffset := (1/2) * (alpha - gamma) / (alpha - 2 * beta + gamma)
    some { period := (minPeriod : ℚ) + (i : ℚ) + peakOffset
           value := beta - (1/4) * (alpha - gamma) * peakOffset }
  else none

/-- The peak list of `detectPitchNSDF`: the scan runs `i` from `1` to
`nsdf.length - 2`, in ascending order. -/
def peaksOf (buffer : List ℚ) (sampleRate : ℚ) : List NsdfPeak :=
  let nsdf := nsdfList buffer sampleRate
  ((List.range (nsdf.length - 2)).map (· + 1)).filterMap
    (peakAt nsdf (minPeriodOf sampleRate))

/-- `Math.max(...peaks.map(p => p.value))` over a non-empty peak list given
its head. -/
def maxRefined (peaks : List NsdfPeak) (p0 : NsdfPeak) : ℚ :=
  peaks.foldl (fun m p => max m p.value) p0.value

/-- `detectPitchNSDF` (`audioEngine.ts` lines 474-558): with no peaks return
`(0, 0)`; otherwise let `maxV` be the largest refined value (`Math.max` over
the peaks), scan the peaks in discovery order and keep the first whose value
reaches `0.8·maxV` (falling back to the first peak, as the source's loop
initialises `bestPeak = peaks[0]`), then return the frequency
`sampleRate / period` clamped to `[100, 1200]` and the value clamped to
`[0, 1]`. -/
def detectPitchNSDF (buffer : List ℚ) (sampleRate : ℚ) : ℚ × ℚ :=
  match peaksOf buffer sampleRate with
  | [] => (0, 0)
  | p0 :: rest =>
    let peaks := p0 :: rest
    let maxV := maxRefined peaks p0
    let bestPeak := (peaks.find? (fun p => decide (maxV * (8/10) ≤ p.value))).getD p0
    let frequency := sampleRate / bestPeak.period
    (max 100 (min frequency 1200), max 0 (min 1 bestPeak.value))

/-! ## The tutor state machine -/

/-- The tutor state of `TutorInterface.tsx`: the current note index, the
finished flag, the listening flag, the displayed detected note, the hold
progress, the hold-start and last-advance timestamps, the last completed note
and the duplicate-note `requireSilence` flag.  A song is modelled by the list
of its melody note names (`song.notes[i].note`); `bassNote` and `lyric` are
presentation only and play no role in matching. -/
structure TutorState where
  currentIndex : ℕ
  isFinished : Bool
  isListening : Bool
  detectedNote : String
  noteProgress : ℚ
  holdStart : Option ℤ
  lastNoteTime : ℤ
  lastCompletedNote : Option String
  requireSilence : Bool
  deriving DecidableEq, Repr

/-- The tutor state after mount / restart: index 0, timers cleared,
`lastNoteTime = 0`, no silence requirement. -/
def initialTutorState : TutorState :=
  { currentIndex := 0
    isFinished := false
    isListening := true
    detectedNote := "..."
    noteProgress := 0
    holdStart := none
    lastNoteTime := 0
    lastCompletedNote := none
    requireSilence := false }

/-- `handleCorrectNote` (`TutorInterface.tsx` lines 151-177), the advance
handler: return unchanged (debounce) when less than 500 ms have passed since
the last advance; otherwise stamp the time, clear progress and hold timer,
record the completed note, set `requireSilence` exactly when the next song
note equals the completed one, and either advance the index or, on the last
note, finish and stop listening (`stopListening` clears the displayed note,
progress and hold timer).  The source indexes `song.notes[currentIndex]`
without a bounds check; the tutor only calls it with the index in range, and
the embedding reads the note with a `""` default. -/
def handleCorrectNote (song : List String) (s : TutorState) (now : ℤ) : TutorState :=
  if now - s.lastNoteTime < 500 then s else
  let completedNote := song.getD s.currentIndex ""
  let nextIndex := s.currentIndex + 1
  let s1 := { s with lastNoteTime := now
                     noteProgress := 0
                     holdStart := none
                     lastCompletedNote := some completedNote
                     requireSilence :=
                       if nextIndex < song.length ∧ song.getD nextIndex "" = completedNote
                       then true else false }
  if s1.currentIndex < song.length - 1 then
    { s1 with currentIndex := s1.currentIndex + 1 }
  else
    { s1 with isFinished := true
              isListening := false
              detectedNote := "..."
              noteProgress := 0
              holdStart := none }

/-- One tick of the `checkPitch` polling loop (`TutorInterface.tsx` lines
179-250), given the engine's detection result for this frame and the current
time.  When not listening the tick exits; a `null` result leaves the state
unchanged; a frame with a non-empty note updates the display and, outside
calibration and when the note matches the current target, either waits
(duplicate-note silence requirement, clearing the hold timer) or runs the
hold timer and calls the advance handler once the hold duration has elapsed;
a non-matching note clears the hold timer; an empty note clears the silence
requirement, the display and the hold timer.  The source's falsy test
`!holdStartTimeRef.current` restarts the timer when the stored timestamp is
the number 0 as well as when it is null, and the embedding preserves that. -/
def checkPitch (song : List String) (holdDuration : ℤ) (isCalibrating : Bool)
    (s : TutorState) (result : Option DetectionFrame) (now : ℤ) : TutorState :=
  if ¬ s.isListening then s else
  match result with
  | none => s
  | some r =>
    if r.note ≠ "" then
      let sA := { s with detectedNote := r.note }
      if ¬ isCalibrating ∧ song.get? sA.currentIndex = some r.note then
        if sA.requireSilence then
          { sA with holdStart := none, noteProgress := 0 }
        else
          let hs : ℤ :=
            match sA.holdStart with
            | none => now
            | some t => if t = 0 then now else t
          let elapsed := now - hs
          let sB := { sA with holdStart := some hs
                              noteProgress := min ((elapsed : ℚ) / (holdDuration : ℚ)) 1 }
          if holdDuration ≤ elapsed then handleCorrectNote song sB now else sB
      else
        { sA with holdStart := none, noteProgress := 0 }
    else
      let sA := if s.requireSilence then { s with requireSilence := false } else s
      { sA with detectedNote := "...", holdStart := none, noteProgress := 0 }

/-- A sequence of `checkPitch` ticks, each given a detection result and a
time. -/
def runTutor (song : List String) (holdDuration : ℤ) (isCalibrating : Bool) :
    TutorState → List (Option DetectionFrame × ℤ) → TutorState
  | s, [] => s
  | s, (result, now) :: rest =>
    runTutor song holdDuration isCalibrating
      (checkPitch song holdDuration isCalibrating s result now) rest

/-! ## Faithfulness of the cents encoding

The source compares cent distances `|1200·log2(f/g)|`; the embedding compares
`centsKey f g = max (f/g) (g/f)` and tests the 50-cent tolerance as
`2 < centsKey^24`.  The two lemmas below prove the order-isomorphism, so the
embedding takes a branch exactly when the source does. -/

theorem abs_logb_eq_logb_max (x : ℝ) (hx : 0 < x) :
    |Real.logb 2 x| = Real.logb 2 (max x x⁻¹) := by
  rcases le_total 1 x with h | h
  · have hinv : x⁻¹ ≤ x := by
      rw [inv_eq_one_div, div_le_iff₀ hx]
      nlinarith
    rw [abs_of_nonneg (Real.logb_nonneg (by norm_num) h), max_eq_left hinv]
  · have hinv : x ≤ x⁻¹ := by
      rw [inv_eq_one_div, le_div_iff₀ hx]
      nlinarith
    rw [abs_of_nonpos (Real.logb_nonpos (by norm_num) (le_of_lt hx) h),
      max_eq_right hinv, Real.logb_inv]

theorem centsKey_cast (f g : ℚ) :
    ((centsKey f g : ℚ) : ℝ) = max ((f : ℝ) / g) ((g : ℝ) / f) := by
  unfold centsKey
  push_cast
  rfl

/-- Comparing two `centsKey` values is comparing the two cent distances. -/
theorem centsKey_lt_iff_cents_lt (f a b : ℚ) (hf : 0 < f) (ha : 0 < a) (hb : 0 < b) :
    (centsKey f a < centsKey f b ↔
      |1200 * Real.logb 2 ((f : ℝ) / a)| < |1200 * Real.logb 2 ((f : ℝ) / b)|) := by
  have hfa : (0:ℝ) < (f : ℝ) / a := by
    apply div_pos <;> exact_mod_cast by assumption
  have hfb : (0:ℝ) < (f : ℝ) / b := by
    apply div_pos <;> exact_mod_cast by assumption
  have hma : (0:ℝ) < max ((f : ℝ) / a) ((a : ℝ) / f) := lt_max_of_lt_left hfa
  have hmb : (0:ℝ) < max ((f : ℝ) / b) ((b : ℝ) / f) := lt_max_of_lt_left hfb
  rw [abs_mul, abs_mul, abs_of_pos (by norm_num : (0:ℝ) < 1200)]
  rw [mul_lt_mul_left (by norm_num : (0:ℝ) < 1200)]
  rw [abs_logb_eq_logb_max _ hfa, abs_logb_eq_logb_max _ hfb]
  rw [inv_div, inv_div]
  rw [Real.logb_lt_logb_iff (by norm_num) hma hmb]
  rw [← centsKey_cast, ← centsKey_cast]
  exact_mod_cast Iff.rfl

/-- The embedding's tolerance test `2 < centsKey^24` is the source's test
`minCents > 50` (in cents, `|1200·log2(f/a)| > 50`). -/
theorem centsKey_pow_iff_cents_gt_fifty (f a : ℚ) (hf : 0 < f) (ha : 0 < a) :
    (2 < centsKey f a ^ 24 ↔ 50 < |1200 * Real.logb 2 ((f : ℝ) / a)|) := by
  have hfa : (0:ℝ) < (f : ℝ) / a := by
    apply div_pos <;> exact_mod_cast by assumption
  have hma : (0:ℝ) < max ((f : ℝ) / a) ((a : ℝ) / f) := lt_max_of_lt_left hfa
  rw [abs_mul, abs_of_pos (by norm_num : (0:ℝ) < 1200)]
  rw [abs_logb_eq_logb_max _ hfa, inv_div]
  have h50 : (50:ℝ) < 1200 * Real.logb 2 (max ((f : ℝ) / a) ((a : ℝ) / f)) ↔
      (50:ℝ)/1200 < Real.logb 2 (max ((f : ℝ) / a) ((a : ℝ) / f)) := by
    rw [div_lt_iff₀ (by norm_num : (0:ℝ) < 1200)]
    constructor <;> intro h <;> linarith
  rw [h50]
  rw [Real.lt_logb_iff_rpow_lt (by norm_num) hma]
  have hkey : ((2:ℝ) ^ ((50:ℝ)/1200) < max ((f : ℝ) / a) ((a : ℝ) / f)) ↔
      (2 : ℝ) < (max ((f : ℝ) / a) ((a : ℝ) / f)) ^ (24:ℕ) := by
    have h2 : ((2:ℝ) ^ ((50:ℝ)/1200)) ^ (24:ℕ) = 2 := by
      rw [← Real.rpow_natCast ((2:ℝ) ^ ((50:ℝ)/1200)) 24, ← Real.rpow_mul (by norm_num)]
      norm_num
    have hrpos : (0:ℝ) < (2:ℝ) ^ ((50:ℝ)/1200) := Real.rpow_pos_of_pos (by norm_num) _
    constructor
    · intro h
      calc (2:ℝ) = ((2:ℝ) ^ ((50:ℝ)/1200)) ^ (24:ℕ) := h2.symm
        _ < (max ((f : ℝ) / a) ((a : ℝ) / f)) ^ (24:ℕ) :=
          pow_lt_pow_left₀ h (le_of_lt hrpos) (by norm_num)
    · intro h
      by_contra hcon
      push_neg at hcon
      have hle : (max ((f : ℝ) / a) ((a : ℝ) / f)) ^ (24:ℕ) ≤
          ((2:ℝ) ^ ((50:ℝ)/1200)) ^ (24:ℕ) :=
        pow_le_pow_left₀ (le_of_lt hma) hcon 24
      rw [h2] at hle
      linarith
  rw [hkey, ← centsKey_cast]
  have hcast : ((centsKey f a : ℚ) : ℝ) ^ (24:ℕ) = (((centsKey f a ^ 24 : ℚ)) : ℝ) := by
    push_cast
    ring
  rw [hcast]
  exact_mod_cast Iff.rfl

/-! ## Helper lemmas: the classifier never leaves the lyre set -/

theorem classifyStep_cases (f : ℚ) (acc : Option (ℚ × String)) (n : String) :
    classifyStep f acc n = acc ∨ ∃ m, classifyStep f acc n = some (m, n) := by
  unfold classifyStep
  cases List.lookup n NOTE_FREQUENCIES with
  | none => exact Or.inl rfl
  | some g =>
    dsimp only
    by_cases hg : g = 0
    · rw [if_pos hg]
      exact Or.inl rfl
    · rw [if_neg hg]
      cases acc with
      | none => exact Or.inr ⟨_, rfl⟩
      | some p =>
        obtain ⟨pm, pn⟩ := p
        dsimp only
        by_cases hlt : centsKey f g < pm
        · rw [if_pos hlt]
          exact Or.inr ⟨_, rfl⟩
        · rw [if_neg hlt]
          exact Or.inl rfl

theorem foldl_classifyStep_mem (f : ℚ) :
    ∀ (l : List String) (acc : Option (ℚ × String)),
      l.foldl (classifyStep f) acc = acc ∨
      ∃ m n, l.foldl (classifyStep f) acc = some (m, n) ∧ n ∈ l
  | [], _ => Or.inl rfl
  | x :: xs, acc => by
    rw [List.foldl_cons]
    rcases classifyStep_cases f acc x with h | ⟨m, h⟩
    · rcases foldl_classifyStep_mem f xs (classifyStep f acc x) with h2 | ⟨m2, n2, h2, hn2⟩
      · exact Or.inl (h2.trans h)
      · exact Or.inr ⟨m2, n2, h2, List.mem_cons_of_mem _ hn2⟩
    · rcases foldl_classifyStep_mem f xs (classifyStep f acc x) with h2 | ⟨m2, n2, h2, hn2⟩
      · exact Or.inr ⟨m, x, h2.trans h, List.mem_cons_self _ _⟩
      · exact Or.inr ⟨m2, n2, h2, List.mem_cons_of_mem _ hn2⟩

theorem frequencyToLyreNote_mem (f : ℚ) :
    frequencyToLyreNote f = "" ∨ frequencyToLyreNote f ∈ LYRE_NOTES := by
  unfold frequencyToLyreNote
  by_cases hb : f < LYRE_MIN_FREQ ∨ LYRE_MAX_FREQ < f
  · rw [if_pos hb]
    exact Or.inl rfl
  · rw [if_neg hb]
    rcases foldl_classifyStep_mem f LYRE_NOTES none with h | ⟨m, n, h, hn⟩
    · rw [h]
      exact Or.inl rfl
    · rw [h]
      dsimp only
      by_cases ht : 2 < m ^ 24
      · rw [if_pos ht]
        exact Or.inl rfl
      · rw [if_neg ht]
        exact Or.inr hn

/-! ## Helper lemmas: the count table of the temporal smoother -/

/-- Count associated with a key in the association list (first entry wins). -/
def lookCount : List (String × ℕ) → String → ℕ
  | [], _ => 0
  | (k', c) :: rest, k => if k' = k then c else lookCount rest k

theorem bumpCount_cons_eq (k : String) (c : ℕ) (rest : List (String × ℕ)) :
    bumpCount ((k, c) :: rest) k = (k, c + 1) :: rest := by
  simp [bumpCount]

theorem bumpCount_cons_ne {k' k : String} (h : k' ≠ k) (c : ℕ)
    (rest : List (String × ℕ)) :
    bumpCount ((k', c) :: rest) k = (k', c) :: bumpCount rest k := by
  simp [bumpCount, h]

theorem lookCount_cons (k' : String) (c : ℕ) (rest : List (String × ℕ)) (k : String) :
    lookCount ((k', c) :: rest) k = if k' = k then c else lookCount rest k := rfl

theorem lookCount_bumpCount_self : ∀ (l : List (String × ℕ)) (k : String),
    lookCount (bumpCount l k) k = lookCount l k + 1
  | [], k => by simp [bumpCount, lookCount]
  | (k', c) :: rest, k => by
    by_cases h : k' = k
    · subst h
      rw [bumpCount_cons_eq, lookCount_cons, lookCount_cons, if_pos rfl, if_pos rfl]
    · rw [bumpCount_cons_ne h, lookCount_cons, lookCount_cons, if_neg h, if_neg h,
        lookCount_bumpCount_self rest k]

theorem lookCount_bumpCount_ne : ∀ (l : List (String × ℕ)) (k q : String), q ≠ k →
    lookCount (bumpCount l k) q = lookCount l q
  | [], k, q, hq => by
    simp only [bumpCount, lookCount]
    rw [if_neg (fun h => hq h.symm)]
  | (k', c) :: rest, k, q, hq => by
    by_cases h : k' = k
    · subst h
      rw [bumpCount_cons_eq, lookCount_cons, lookCount_cons,
        if_neg (fun h2 => hq h2.symm), if_neg (fun h2 => hq h2.symm)]
    · rw [bumpCount_cons_ne h, lookCount_cons, lookCount_cons]
      by_cases h2 : k' = q
      · rw [if_pos h2, if_pos h2]
      · rw [if_neg h2, if_neg h2, lookCount_bumpCount_ne rest k q hq]

theorem bumpCount_mem : ∀ (l : List (String × ℕ)) (k : String) (p : String × ℕ),
    p ∈ bumpCount l k → p.1 = k ∨ p ∈ l
  | [], k, p, hp => by
    simp only [bumpCount, List.mem_singleton] at hp
    exact Or.inl (by rw [hp])
  | (k', c) :: rest, k, p, hp => by
    by_cases h : k' = k
    · simp only [bumpCount, if_pos h, List.mem_cons] at hp
      rcases hp with hp | hp
      · exact Or.inl (by rw [hp, h])
      · exact Or.inr (List.mem_cons_of_mem _ hp)
    · simp only [bumpCount, if_neg h, List.mem_cons] at hp
      rcases hp with hp | hp
      · exact Or.inr (by rw [hp]; exact List.mem_cons_self _ _)
      · rcases bumpCount_mem rest k p hp with h2 | h2
        · exact Or.inl h2
        · exact Or.inr (List.mem_cons_of_mem _ h2)

theorem bumpCount_keys : ∀ (l : List (String × ℕ)) (k : String),
    (bumpCount l k).map Prod.fst =
      if k ∈ l.map Prod.fst then l.map Prod.fst else l.map Prod.fst ++ [k]
  | [], k => by simp [bumpCount]
  | (k', c) :: rest, k => by
    by_cases h : k' = k
    · subst h
      rw [bumpCount_cons_eq]
      simp
    · rw [bumpCount_cons_ne h]
      simp only [List.map_cons, bumpCount_keys rest k, List.mem_cons]
      by_cases h2 : k ∈ rest.map Prod.fst
      · rw [if_pos h2, if_pos (Or.inr h2)]
      · rw [if_neg h2, if_neg ?_]
        · simp
        · rintro (h3 | h3)
          · exact h h3.symm
          · exact h2 h3

/-- Well-formedness of the count table: keys are distinct and non-empty. -/
def CountsWF (l : List (String × ℕ)) : Prop :=
  (l.map Prod.fst).Nodup ∧ ∀ p ∈ l, p.1 ≠ ""

theorem bumpCount_WF {l : List (String × ℕ)} {k : String} (hk : k ≠ "")
    (h : CountsWF l) : CountsWF (bumpCount l k) := by
  constructor
  · rw [bumpCount_keys]
    by_cases h2 : k ∈ l.map Prod.fst
    · rw [if_pos h2]
      exact h.1
    · rw [if_neg h2]
      refine List.Nodup.append h.1 (List.nodup_singleton k) ?_
      intro x hx hxk
      rw [List.mem_singleton] at hxk
      exact h2 (hxk ▸ hx)
  · intro p hp
    rcases bumpCount_mem l k p hp with h2 | h2
    · rw [h2]
      exact hk
    · exact h.2 p h2

theorem mem_value_eq_lookCount : ∀ (l : List (String × ℕ)),
    (l.map Prod.fst).Nodup → ∀ p ∈ l, p.2 = lookCount l p.1
  | [], _, p, hp => absurd hp (List.not_mem_nil p)
  | (k', c) :: rest, hnd, p, hp => by
    have hnd' : k' ∉ rest.map Prod.fst ∧ (rest.map Prod.fst).Nodup := by
      rw [List.map_cons, List.nodup_cons] at hnd
      exact hnd
    rcases List.mem_cons.mp hp with hp | hp
    · rw [hp, lookCount_cons, if_pos rfl]
    · have hk : k' ≠ p.1 := by
        intro hpk
        exact hnd'.1 (hpk ▸ List.mem_map_of_mem Prod.fst hp)
      rw [lookCount_cons, if_neg hk]
      exact mem_value_eq_lookCount rest hnd'.2 p hp

theorem lookCount_pos_mem : ∀ (l : List (String × ℕ)) (k : String),
    0 < lookCount l k → (k, lookCount l k) ∈ l
  | [], k, h => by simp [lookCount] at h
  | (k', c) :: rest, k, h => by
    by_cases h2 : k' = k
    · subst h2
      rw [lookCount_cons, if_pos rfl] at h ⊢
      exact List.mem_cons_self _ _
    · rw [lookCount_cons, if_neg h2] at h ⊢
      exact List.mem_cons_of_mem _ (lookCount_pos_mem rest k h)

theorem buildCounts_lookCount (k : String) (hk : k ≠ "") :
    ∀ (notes : List String) (acc : List (String × ℕ)),
      lookCount (notes.foldl (fun a note => if note ≠ "" then bumpCount a note else a) acc) k
        = lookCount acc k + notes.count k
  | [], acc => by simp
  | n :: t, acc => by
    rw [List.foldl_cons, buildCounts_lookCount k hk t _]
    by_cases hn : n = k
    · subst hn
      rw [if_pos hk, lookCount_bumpCount_self, List.count_cons_self]
      omega
    · rw [List.count_cons_of_ne (fun h => hn h.symm)]
      by_cases hne : n ≠ ""
      · rw [if_pos hne, lookCount_bumpCount_ne acc n k (fun h => hn h.symm)]
      · rw [if_neg hne]

theorem buildCounts_WF_aux : ∀ (h : List String) (acc : List (String × ℕ)),
    CountsWF acc →
    CountsWF (h.foldl (fun a note => if note ≠ "" then bumpCount a note else a) acc)
  | [], _, hacc => hacc
  | n :: t, acc, hacc => by
    rw [List.foldl_cons]
    by_cases hn : n ≠ ""
    · rw [if_pos hn]
      exact buildCounts_WF_aux t _ (bumpCount_WF hn hacc)
    · rw [if_neg hn]
      exact buildCounts_WF_aux t _ hacc

theorem buildCounts_WF (h : List String) : CountsWF (buildCounts h) :=
  buildCounts_WF_aux h [] ⟨List.nodup_nil, by simp⟩

theorem buildCounts_count (h : List String) (k : String) (hk : k ≠ "") :
    lookCount (buildCounts h) k = h.count k := by
  unfold buildCounts
  rw [buildCounts_lookCount k hk h []]
  simp [lookCount]

theorem buildCounts_mem_key : ∀ (notes : List String) (acc : List (String × ℕ))
    (p : String × ℕ),
    p ∈ notes.foldl (fun a note => if note ≠ "" then bumpCount a note else a) acc →
    p ∈ acc ∨ p.1 ∈ notes
  | [], _, p, hp => Or.inl hp
  | n :: t, acc, p, hp => by
    rw [List.foldl_cons] at hp
    by_cases hn : n ≠ ""
    · rw [if_pos hn] at hp
      rcases buildCounts_mem_key t _ p hp with h2 | h2
      · rcases bumpCount_mem acc n p h2 with h3 | h3
        · exact Or.inr (h3 ▸ List.mem_cons_self _ _)
        · exact Or.inl h3
      · exact Or.inr (List.mem_cons_of_mem _ h2)
    · rw [if_neg hn] at hp
      rcases buildCounts_mem_key t acc p hp with h2 | h2
      · exact Or.inl h2
      · exact Or.inr (List.mem_cons_of_mem _ h2)

theorem foldl_maxStep_ge : ∀ (l : List (String × ℕ)) (init : ℕ × String),
    init.1 ≤ (l.foldl maxStep init).1 ∧ ∀ p ∈ l, p.2 ≤ (l.foldl maxStep init).1
  | [], init => ⟨le_refl _, by simp⟩
  | e :: t, init => by
    rw [List.foldl_cons]
    have ih := foldl_maxStep_ge t (maxStep init e)
    have hstep : init.1 ≤ (maxStep init e).1 ∧ e.2 ≤ (maxStep init e).1 := by
      unfold maxStep
      by_cases h : init.1 < e.2
      · rw [if_pos h]
        exact ⟨le_of_lt h, le_refl _⟩
      · rw [if_neg h]
        exact ⟨le_refl _, le_of_not_lt h⟩
    refine ⟨le_trans hstep.1 ih.1, ?_⟩
    intro p hp
    rcases List.mem_cons.mp hp with hp | hp
    · subst hp
      exact le_trans hstep.2 ih.1
    · exact ih.2 p hp

theorem foldl_maxStep_cases : ∀ (l : List (String × ℕ)) (init : ℕ × String),
    l.foldl maxStep init = init ∨ ∃ p ∈ l, l.foldl maxStep init = (p.2, p.1)
  | [], init => Or.inl rfl
  | e :: t, init => by
    rw [List.foldl_cons]
    have hstep : maxStep init e = init ∨ maxStep init e = (e.2, e.1) := by
      unfold maxStep
      by_cases h : init.1 < e.2
      · rw [if_pos h]
        exact Or.inr rfl
      · rw [if_neg h]
        exact Or.inl rfl
    rcases foldl_maxStep_cases t (maxStep init e) with h2 | ⟨p, hp, h2⟩
    · rcases hstep with h3 | h3
      · exact Or.inl (by rw [h2, h3])
      · exact Or.inr ⟨e, List.mem_cons_self _ _, by rw [h2, h3]⟩
    · exact Or.inr ⟨p, List.mem_cons_of_mem _ hp, h2⟩

/-- The behavioural specification of `getMostConsistentNote`: empty output for
fewer than 3 history entries; a non-empty output is a most frequent non-empty
entry of the history with count at least 3; and whenever some non-empty note
reaches count 3, the output is non-empty. -/
theorem getMostConsistentNote_spec (h : List String) :
    (h.length < 3 → getMostConsistentNote h = "") ∧
    (getMostConsistentNote h ≠ "" →
       getMostConsistentNote h ∈ h ∧
       3 ≤ h.count (getMostConsistentNote h) ∧
       ∀ n, n ≠ "" → h.count n ≤ h.count (getMostConsistentNote h)) ∧
    ((∃ n, n ≠ "" ∧ 3 ≤ h.count n) → getMostConsistentNote h ≠ "") := by
  refine ⟨?_, ?_, ?_⟩
  · intro hlen
    unfold getMostConsistentNote
    rw [if_pos hlen]
  · intro hne
    unfold getMostConsistentNote at hne ⊢
    by_cases hlen : h.length < 3
    · rw [if_pos hlen] at hne
      exact absurd rfl hne
    · rw [if_neg hlen] at hne ⊢
      by_cases hc : 3 ≤ (maxCountEntry (buildCounts h)).1
      · rw [if_pos hc] at hne ⊢
        -- the winning entry really occurs in the count table
        rcases foldl_maxStep_cases (buildCounts h) (0, "") with hca | ⟨p, hp, hca⟩
        · exfalso
          unfold maxCountEntry at hc
          rw [hca] at hc
          omega
        · have hwf := buildCounts_WF h
          have hkey : p.1 ≠ "" := hwf.2 p hp
          have hval : p.2 = lookCount (buildCounts h) p.1 :=
            mem_value_eq_lookCount (buildCounts h) hwf.1 p hp
          have hcount : p.2 = h.count p.1 := by
            rw [hval, buildCounts_count h p.1 hkey]
          have hbest : maxCountEntry (buildCounts h) = (p.2, p.1) := hca
          have hsnd : (maxCountEntry (buildCounts h)).2 = p.1 := by rw [hbest]
          have hfst : (maxCountEntry (buildCounts h)).1 = p.2 := by rw [hbest]
          rw [hsnd]
          rw [hfst] at hc
          refine ⟨?_, ?_, ?_⟩
          · exact List.count_pos_iff.mp (by omega : 0 < h.count p.1)
          · omega
          · intro n hn
            by_cases hcn : 0 < h.count n
            · have hlk : 0 < lookCount (buildCounts h) n := by
                rw [buildCounts_count h n hn]
                exact hcn
              have hmem := lookCount_pos_mem (buildCounts h) n hlk
              have := (foldl_maxStep_ge (buildCounts h) (0, "")).2 _ hmem
              unfold maxCountEntry at hfst
              rw [hfst] at this
              rw [← hcount]
              calc h.count n = lookCount (buildCounts h) n :=
                    (buildCounts_count h n hn).symm
                _ ≤ p.2 := this
            · omega
      · rw [if_neg hc] at hne
        exact absurd rfl hne
  · rintro ⟨n, hn, hcn⟩
    have hlen : ¬ h.length < 3 := by
      have := List.count_le_length n h
      omega
    have hlk : 0 < lookCount (buildCounts h) n := by
      rw [buildCounts_count h n hn]
      omega
    have hmem := lookCount_pos_mem (buildCounts h) n hlk
    have hge := (foldl_maxStep_ge (buildCounts h) (0, "")).2 _ hmem
    have hfst3 : 3 ≤ (maxCountEntry (buildCounts h)).1 := by
      unfold maxCountEntry
      have : lookCount (buildCounts h) n = h.count n := buildCounts_count h n hn
      omega
    unfold getMostConsistentNote
    rw [if_neg hlen, if_pos hfst3]
    rcases foldl_maxStep_cases (buildCounts h) (0, "") with hca | ⟨p, hp, hca⟩
    · exfalso
      unfold maxCountEntry at hfst3
      rw [hca] at hfst3
      omega
    · have hwf := buildCounts_WF h
      have : (maxCountEntry (buildCounts h)).2 = p.1 := by
        unfold maxCountEntry
        rw [hca]
      rw [this]
      exact hwf.2 p hp

/-! ## Helper lemmas: the engine step -/

theorem updateNoiseFloor_noteHistory (s : EngineState) (rms : ℚ) :
    (updateNoiseFloor s rms).noteHistory = s.noteHistory := by
  unfold updateNoiseFloor
  split <;> rfl

theorem updateNoiseFloor_frequencyHistory (s : EngineState) (rms : ℚ) :
    (updateNoiseFloor s rms).frequencyHistory = s.frequencyHistory := by
  unfold updateNoiseFloor
  split <;> rfl

theorem rawNoteOf_mem (s : EngineState) (inp : FrameInput) :
    rawNoteOf s inp = "" ∨ rawNoteOf s inp ∈ LYRE_NOTES := by
  unfold rawNoteOf
  dsimp only
  split
  · exact frequencyToLyreNote_mem _
  · exact Or.inl rfl

theorem detectPitchStep_noteHistory (s : EngineState) (inp : FrameInput) :
    (detectPitchStep s inp).1.noteHistory =
      (if 5 < (s.noteHistory ++ [rawNoteOf s inp]).length
       then (s.noteHistory ++ [rawNoteOf s inp]).tail
       else s.noteHistory ++ [rawNoteOf s inp]) := by
  simp only [detectPitchStep, updateNoiseFloor_noteHistory]

theorem detectPitchStep_frequencyHistory (s : EngineState) (inp : FrameInput) :
    (detectPitchStep s inp).1.frequencyHistory =
      (if 5 < (s.noteHistory ++ [rawNoteOf s inp]).length
       then (s.frequencyHistory ++ [inp.frequency]).tail
       else s.frequencyHistory ++ [inp.frequency]) := by
  simp only [detectPitchStep, updateNoiseFloor_noteHistory,
    updateNoiseFloor_frequencyHistory]

theorem detectPitchStep_note (s : EngineState) (inp : FrameInput) :
    (detectPitchStep s inp).2.note =
      getMostConsistentNote (detectPitchStep s inp).1.noteHistory := rfl

theorem detectPitchStep_frequency (s : EngineState) (inp : FrameInput) :
    (detectPitchStep s inp).2.frequency =
      getMedianFrequency (detectPitchStep s inp).1.frequencyHistory := rfl

theorem detectPitchStep_inv (s : EngineState) (inp : FrameInput)
    (hinv : ∀ n ∈ s.noteHistory, n = "" ∨ n ∈ LYRE_NOTES) :
    ∀ n ∈ (detectPitchStep s inp).1.noteHistory, n = "" ∨ n ∈ LYRE_NOTES := by
  intro n hn
  rw [detectPitchStep_noteHistory] at hn
  have hmem : n ∈ s.noteHistory ++ [rawNoteOf s inp] := by
    by_cases h5 : 5 < (s.noteHistory ++ [rawNoteOf s inp]).length
    · rw [if_pos h5] at hn
      exact List.mem_of_mem_tail hn
    · rw [if_neg h5] at hn
      exact hn
  rcases List.mem_append.mp hmem with hmem | hmem
  · exact hinv n hmem
  · rw [List.mem_singleton] at hmem
    subst hmem
    exact rawNoteOf_mem s inp

theorem detectPitchStep_frame_note_mem (s : EngineState) (inp : FrameInput)
    (hinv : ∀ n ∈ s.noteHistory, n = "" ∨ n ∈ LYRE_NOTES) :
    (detectPitchStep s inp).2.note = "" ∨ (detectPitchStep s inp).2.note ∈ LYRE_NOTES := by
  rw [detectPitchStep_note]
  by_cases hne : getMostConsistentNote (detectPitchStep s inp).1.noteHistory = ""
  · exact Or.inl hne
  · have hmem := ((getMostConsistentNote_spec _).2.1 hne).1
    exact detectPitchStep_inv s inp hinv _ hmem

/-- Any sorted permutation of a rational list is its insertion sort. -/
theorem sorted_perm_eq_insertionSort (q l' : List ℚ)
    (hperm : l'.Perm q) (hsort : l'.Sorted (· ≤ ·)) :
    l' = q.insertionSort (· ≤ ·) :=
  List.eq_of_perm_of_sorted (hperm.trans (List.perm_insertionSort _ q).symm) hsort
    (List.sorted_insertionSort _ q)

theorem tail_append_singleton {α : Type} (l : List α) (a : α) (h : l ≠ []) :
    (l ++ [a]).tail = l.tail ++ [a] := by
  cases l with
  | nil => exact absurd rfl h
  | cons x xs => rfl

/-! ## Concrete inputs used by counterexamples and witnesses -/

/-- A quiet frame at the engine's startup noise level. -/
def quietInput : FrameInput :=
  { rms := 1/1000, zcr := 0, spectralFlatness := 0, frequency := 0, clarity := 0,
    hasHarmonics := false }

/-- A loud, clear A4 frame. -/
def loudInput : FrameInput :=
  { rms := 1, zcr := 0, spectralFlatness := 0, frequency := 440, clarity := 9/10,
    hasHarmonics := true }

/-- A digitally silent frame (RMS exactly 0). -/
def silentInput : FrameInput :=
  { rms := 0, zcr := 0, spectralFlatness := 0, frequency := 0, clarity := 0,
    hasHarmonics := false }

/-- A loud, clear frame at 1150 Hz: inside the NSDF range but above the lyre
band, so its raw note is always rejected. -/
def outOfBandInput : FrameInput :=
  { rms := 1, zcr := 0, spectralFlatness := 0, frequency := 1150, clarity := 9/10,
    hasHarmonics := true }

/-- Ten quiet frames settle the noise floor; three loud A4 frames fill the
note history; a final silent frame is then returned with the stable note
still "A4". -/
def c1CounterexampleInputs : List FrameInput :=
  List.replicate 10 quietInput ++ [loudInput, loudInput, loudInput, silentInput]

/-! ## Claim C1 -/

set_option maxRecDepth 400000 in
/-- C1 (counterexample): the claim fails as stated.  In a reachable execution
(ten quiet frames, three loud A4 frames, one silent frame) the final
`detectPitch` call returns a frame whose volume `0` is at or below the
effective RMS threshold `max(rmsThreshold, 2·noiseFloor)` of that call, yet
whose note field is "A4": the gate empties only the current frame's raw note,
while the returned note is the temporally smoothed stable note. -/
theorem claim_C1_counterexample :
    (runEngine initialEngineState c1CounterexampleInputs).2.getLast? =
      some { note := "A4", frequency := 440, clarity := 0, volume := 0 } ∧
    ({ note := "A4", frequency := 440, clarity := 0, volume := 0 } : DetectionFrame).volume ≤
      effectiveThreshold (runEngine initialEngineState c1CounterexampleInputs).1 ∧
    ({ note := "A4", frequency := 440, clarity := 0, volume := 0 } : DetectionFrame).note ≠ "" := by
  with_unfolding_all decide

/-- C1 (amended): when the frame's volume is at or below the effective RMS
threshold `max(rmsThreshold, 2·noiseFloor)` (with the noise floor already
updated by this frame, as the gate reads it), the frame's *raw* note — the
value pushed into the note history — is the empty string; the frame's volume
field is the frame's RMS.  The *returned* note field is the smoothed stable
note and may be non-empty on the strength of earlier frames. -/
theorem claim_C1_amended (s : EngineState) (inp : FrameInput)
    (h : inp.rms ≤ effectiveThreshold (updateNoiseFloor s inp.rms)) :
    rawNoteOf s inp = "" ∧ (detectPitchStep s inp).2.volume = inp.rms := by
  constructor
  · unfold rawNoteOf
    dsimp only
    rw [if_neg]
    rintro ⟨h1, -⟩
    exact absurd h1 (not_lt.mpr h)
  · rfl

/-- Witness for C1 (amended) at the silent frame from the initial state. -/
theorem claim_C1_amended_witness :
    rawNoteOf initialEngineState silentInput = "" :=
  (claim_C1_amended initialEngineState silentInput (by with_unfolding_all decide)).1

/-! ## Claim C2 -/

/-- C2 (counterexample): the claim fails as stated.  The smoother's early
return tests `REQUIRED_CONSISTENCY = 3`, not `HISTORY_SIZE = 5`: a history of
three equal non-empty entries — fewer than 5 — already yields the non-empty
stable note "A4". -/
theorem claim_C2_counterexample :
    getMostConsistentNote ["A4", "A4", "A4"] = "A4" ∧
    (["A4", "A4", "A4"] : List String).length < 5 ∧
    ("A4" : String) ≠ "" := by
  with_unfolding_all decide

/-- C2 (amended): the stable note is empty whenever the history holds fewer
than 3 entries (in particular the claim's threshold of 5 is wrong; the code
uses `REQUIRED_CONSISTENCY = 3`); a non-empty stable note is a most frequent
non-empty history entry with count at least `REQUIRED_CONSISTENCY = 3`; and
whenever some non-empty note reaches count 3 — which includes every full
5-entry history with a winner of count at least 3 — the stable note is
non-empty. -/
theorem claim_C2_amended (h : List String) :
    (h.length < 3 → getMostConsistentNote h = "") ∧
    (getMostConsistentNote h ≠ "" →
       3 ≤ h.count (getMostConsistentNote h) ∧
       ∀ n, n ≠ "" → h.count n ≤ h.count (getMostConsistentNote h)) ∧
    ((∃ n, n ≠ "" ∧ 3 ≤ h.count n) → getMostConsistentNote h ≠ "") := by
  obtain ⟨h1, h2, h3⟩ := getMostConsistentNote_spec h
  exact ⟨h1, fun hne => ⟨(h2 hne).2.1, (h2 hne).2.2⟩, h3⟩

/-- Witness for C2 (amended) on a full 5-entry history. -/
theorem claim_C2_amended_witness :
    getMostConsistentNote ["A4", "A4", "B4", "A4", ""] ≠ "" ∧
    3 ≤ (["A4", "A4", "B4", "A4", ""] : List String).count
          (getMostConsistentNote ["A4", "A4", "B4", "A4", ""]) := by
  have hne := (claim_C2_amended ["A4", "A4", "B4", "A4", ""]).2.2
    ⟨"A4", by decide, by decide⟩
  exact ⟨hne, ((claim_C2_amended ["A4", "A4", "B4", "A4", ""]).2.1 hne).1⟩

/-! ## Claim C3 -/

/-- C3 (confirmed): from any state whose note history only holds the empty
string or lyre notes — the initial state in particular — every frame returned
by any sequence of `detectPitch` calls carries a note that is either empty or
one of the 19 lyre notes; the classifier never returns a note outside the
lyre set. -/
theorem claim_C3 : ∀ (inputs : List FrameInput) (s0 : EngineState),
    (∀ n ∈ s0.noteHistory, n = "" ∨ n ∈ LYRE_NOTES) →
    ∀ fr ∈ (runEngine s0 inputs).2, fr.note = "" ∨ fr.note ∈ LYRE_NOTES
  | [], s0, hinv => by
    intro fr hfr
    simp [runEngine] at hfr
  | inp :: rest, s0, hinv => by
    intro fr hfr
    simp only [runEngine] at hfr
    rcases List.mem_cons.mp hfr with hfr | hfr
    · subst hfr
      exact detectPitchStep_frame_note_mem s0 inp hinv
    · exact claim_C3 rest (detectPitchStep s0 inp).1 (detectPitchStep_inv s0 inp hinv) fr hfr

/-- Witness for C3: the first frame produced from the initial state by a loud
A4 input (its note is the empty string, the smoother not yet full). -/
theorem claim_C3_witness :
    ({ note := "", frequency := 440, clarity := 9/10, volume := 1 } : DetectionFrame).note = "" ∨
    ({ note := "", frequency := 440, clarity := 9/10, volume := 1 } : DetectionFrame).note ∈
      LYRE_NOTES :=
  claim_C3 [loudInput] initialEngineState (by intro n hn; simp [initialEngineState] at hn)
    { note := "", frequency := 440, clarity := 9/10, volume := 1 }
    (by with_unfolding_all decide)

/-! ## Claim C5 -/

/-- C5 (confirmed): every lyre note name is present in the frequency table,
and classifying its table frequency returns the note itself — the round trip
note → frequency → note is the identity on the lyre set. -/
theorem claim_C5 : ∀ n ∈ LYRE_NOTES,
    (List.lookup n NOTE_FREQUENCIES).isSome = true ∧
    frequencyToLyreNote ((List.lookup n NOTE_FREQUENCIES).getD 0) = n := by
  with_unfolding_all decide

/-- Witness for C5 at A4. -/
theorem claim_C5_witness :
    (List.lookup "A4" NOTE_FREQUENCIES).isSome = true ∧
    frequencyToLyreNote ((List.lookup "A4" NOTE_FREQUENCIES).getD 0) = "A4" :=
  claim_C5 "A4" (by decide)

/-! ## Claim C8 -/

/-- C8 (counterexample): the claim fails as stated.  The engine's `setGain`
assigns its argument to the gain node unclamped: `setGain` with a gain node
present and argument 10 stores 10, where the claimed clamping to `[0.5, 5.0]`
would store 5. -/
theorem claim_C8_counterexample :
    setGain (some (3/2)) 10 = some 10 ∧
    setGainClampedSpec (some (3/2)) 10 = some 5 ∧
    setGain (some (3/2)) 10 ≠ setGainClampedSpec (some (3/2)) 10 := by
  with_unfolding_all decide

/-- C8 (amended): `setGain(x)` stores `x` itself (no clamping; a no-op
without a gain node); the clamping of the gain to `[0.5, 5.0]` is performed
by the UI gain controls, whose ±0.5 steps keep any gain already in
`[0.5, 5.0]` inside that range. -/
theorem claim_C8_amended :
    (∀ g x : ℚ, setGain (some g) x = some x) ∧
    (∀ x : ℚ, setGain none x = none) ∧
    (∀ g : ℚ, 1/2 ≤ g → g ≤ 5 →
       1/2 ≤ increaseGain g ∧ increaseGain g ≤ 5 ∧
       1/2 ≤ decreaseGain g ∧ decreaseGain g ≤ 5) := by
  refine ⟨fun g x => rfl, fun x => rfl, ?_⟩
  intro g h1 h2
  unfold increaseGain decreaseGain
  refine ⟨le_min (by linarith) (by norm_num), min_le_right _ _,
    le_max_right _ _, max_le (by linarith) (by norm_num)⟩

/-- Witness for C8 (amended) at gain 1 and argument 7. -/
theorem claim_C8_amended_witness :
    setGain (some 1) 7 = some 7 ∧
    1/2 ≤ increaseGain 1 ∧ increaseGain 1 ≤ 5 ∧
    1/2 ≤ decreaseGain 1 ∧ decreaseGain 1 ≤ 5 := by
  obtain ⟨h1, -, h3⟩ := claim_C8_amended
  obtain ⟨a, b, c, d⟩ := h3 1 (by norm_num) (by norm_num)
  exact ⟨h1 1 7, a, b, c, d⟩

/-! ## Claim C9 -/

set_option maxRecDepth 400000 in
/-- C9 (counterexample): the claim fails as stated.  After appending an RMS
of 0 the ring is `[0]` — non-empty — so the claim says the noise floor
becomes the median 0; the source's `sorted[...] || 0.001` instead substitutes
0.001 because the median element 0 is falsy. -/
theorem claim_C9_counterexample :
    (updateNoiseFloor initialEngineState 0).noiseFloorSamples = [0] ∧
    (([0] : List ℚ).insertionSort (· ≤ ·)).getD (([0] : List ℚ).length / 2) 0 = 0 ∧
    (updateNoiseFloor initialEngineState 0).noiseFloor = 1/1000 ∧
    (1/1000 : ℚ) ≠ 0 := by
  with_unfolding_all decide

/-- C9 (amended): on every frame, if the RMS is below `3·noiseFloor` or fewer
than 10 samples have been collected, the RMS is appended to a ring of
capacity 50 (oldest dropped) and the noise floor is recomputed as the element
at index `⌊n/2⌋` of the sorted ring, except that 0.001 is substituted when
that element is 0 (the ring is never empty at that point; the claim's
"0.001 if the ring is empty" case cannot occur, and the actual fallback
condition is a zero median); otherwise nothing changes.  The effective RMS
gate used for classification is `max(rmsThreshold, 2·noiseFloor)`. -/
theorem claim_C9_amended (s : EngineState) (rms : ℚ)
    (hlen : s.noiseFloorSamples.length ≤ 50) :
    ((rms < s.noiseFloor * 3 ∨ s.noiseFloorSamples.length < 10) →
       (updateNoiseFloor s rms).noiseFloorSamples =
         (if 50 < (s.noiseFloorSamples ++ [rms]).length
          then (s.noiseFloorSamples ++ [rms]).tail
          else s.noiseFloorSamples ++ [rms]) ∧
       (updateNoiseFloor s rms).noiseFloorSamples ≠ [] ∧
       (updateNoiseFloor s rms).noiseFloorSamples.length ≤ 50 ∧
       (∀ l' : List ℚ, l'.Perm (updateNoiseFloor s rms).noiseFloorSamples →
          l'.Sorted (· ≤ ·) →
          (updateNoiseFloor s rms).noiseFloor =
            (if l'.getD ((updateNoiseFloor s rms).noiseFloorSamples.length / 2) 0 = 0
             then 1/1000
             else l'.getD ((updateNoiseFloor s rms).noiseFloorSamples.length / 2) 0))) ∧
    (¬ (rms < s.noiseFloor * 3 ∨ s.noiseFloorSamples.length < 10) →
       updateNoiseFloor s rms = s) ∧
    (∀ inp : FrameInput, rawNoteOf s inp ≠ "" →
       effectiveThreshold (updateNoiseFloor s inp.rms) < inp.rms) ∧
    (effectiveThreshold s = max s.rmsThreshold (s.noiseFloor * 2)) := by
  refine ⟨?_, ?_, ?_, rfl⟩
  · intro hcond
    unfold updateNoiseFloor
    rw [if_pos hcond]
    dsimp only
    refine ⟨rfl, ?_, ?_, ?_⟩
    · split
      · rename_i h50
        simp only [List.length_append, List.length_singleton] at h50
        intro habs
        have hlen2 := congrArg List.length habs
        simp only [List.length_tail, List.length_append, List.length_singleton,
          List.length_nil] at hlen2
        omega
      · intro habs
        have hlen2 := congrArg List.length habs
        simp only [List.length_append, List.length_singleton, List.length_nil] at hlen2
        omega
    · split
      · rename_i h50
        simp only [List.length_append, List.length_singleton] at h50
        simp only [List.length_tail, List.length_append, List.length_singleton]
        omega
      · rename_i h50
        simp only [List.length_append, List.length_singleton] at h50
        simp only [List.length_append, List.length_singleton]
        omega
    · intro l' hperm hsort
      rw [sorted_perm_eq_insertionSort _ l' hperm hsort]
  · intro hcond
    unfold updateNoiseFloor
    rw [if_neg hcond]
  · intro inp hne
    unfold rawNoteOf at hne
    dsimp only at hne
    by_cases hcond : effectiveThreshold (updateNoiseFloor s inp.rms) < inp.rms ∧
        (updateNoiseFloor s inp.rms).correlationThreshold < inp.clarity ∧
        ¬ (3/10 < inp.zcr) ∧
        (LYRE_MIN_FREQ ≤ inp.frequency ∧ inp.frequency ≤ LYRE_MAX_FREQ) ∧
        (inp.spectralFlatness < 3/10 ∨ inp.hasHarmonics)
    · exact hcond.1
    · rw [if_neg hcond] at hne
      exact absurd rfl hne

/-- Witness for C9 (amended): the first sample is collected from the initial
state. -/
theorem claim_C9_amended_witness :
    (updateNoiseFloor initialEngineState (1/100)).noiseFloorSamples =
      (if 50 < (initialEngineState.noiseFloorSamples ++ [1/100] : List ℚ).length
       then (initialEngineState.noiseFloorSamples ++ [1/100]).tail
       else initialEngineState.noiseFloorSamples ++ [1/100]) ∧
    (updateNoiseFloor initialEngineState (1/100)).noiseFloorSamples.length ≤ 50 := by
  have h := (claim_C9_amended initialEngineState (1/100) (by with_unfolding_all decide)).1
    (Or.inr (by with_unfolding_all decide))
  exact ⟨h.1, h.2.2.1⟩

/-! ## Claim C10 -/

set_option maxRecDepth 400000 in
/-- C10 (confirmed): the raw per-frame NSDF frequency is pushed into the
frequency history on every call — in particular also when the frame's raw
note is rejected by the gating — and the returned frequency field is the
element at index `⌊n/2⌋` of the sorted history.  Consequently a frame can
carry a non-zero frequency together with an empty note: a single loud, clear
1150 Hz tone (above the lyre band) from the initial state yields the frame
`(note "", frequency 1150)`. -/
theorem claim_C10 (s : EngineState) (inp : FrameInput)
    (hlen : s.frequencyHistory.length = s.noteHistory.length) :
    (detectPitchStep s inp).1.frequencyHistory.getLast? = some inp.frequency ∧
    (∀ l' : List ℚ, l'.Perm (detectPitchStep s inp).1.frequencyHistory →
       l'.Sorted (· ≤ ·) →
       (detectPitchStep s inp).2.frequency =
         l'.getD ((detectPitchStep s inp).1.frequencyHistory.length / 2) 0) ∧
    ((runEngine initialEngineState [outOfBandInput]).2 =
       [{ note := "", frequency := 1150, clarity := 9/10, volume := 1 }] ∧
     (1150 : ℚ) ≠ 0) := by
  have hfq := detectPitchStep_frequencyHistory s inp
  have hnonempty : (detectPitchStep s inp).1.frequencyHistory ≠ [] := by
    rw [hfq]
    split
    · rename_i h5
      simp only [List.length_append, List.length_singleton] at h5
      intro habs
      have hlen2 := congrArg List.length habs
      simp only [List.length_tail, List.length_append, List.length_singleton,
        List.length_nil] at hlen2
      omega
    · intro habs
      have hlen2 := congrArg List.length habs
      simp only [List.length_append, List.length_singleton, List.length_nil] at hlen2
      omega
  refine ⟨?_, ?_, ?_⟩
  · rw [hfq]
    split
    · rename_i h5
      simp only [List.length_append, List.length_singleton] at h5
      have hne : s.frequencyHistory ≠ [] := by
        intro habs
        rw [habs] at hlen
        simp only [List.length_nil] at hlen
        omega
      rw [tail_append_singleton _ _ hne]
      exact List.getLast?_concat _
    · exact List.getLast?_concat _
  · intro l' hperm hsort
    rw [detectPitchStep_frequency]
    unfold getMedianFrequency
    rw [if_neg (by
      intro habs
      exact hnonempty (List.length_eq_zero.mp habs))]
    rw [sorted_perm_eq_insertionSort _ _ hperm hsort]
  · constructor
    · with_unfolding_all decide
    · with_unfolding_all decide

/-- Witness for C10 at the initial state and the out-of-band input. -/
theorem claim_C10_witness :
    (detectPitchStep initialEngineState outOfBandInput).1.frequencyHistory.getLast? =
      some outOfBandInput.frequency :=
  (claim_C10 initialEngineState outOfBandInput rfl).1

/-! ## Helper lemmas: the tutor state machine -/

theorem handleCorrectNote_debounce (song : List String) (s : TutorState) (now : ℤ)
    (h : now - s.lastNoteTime < 500) : handleCorrectNote song s now = s := by
  unfold handleCorrectNote
  rw [if_pos h]

theorem handleCorrectNote_success (song : List String) (s : TutorState) (now : ℤ)
    (h : ¬ now - s.lastNoteTime < 500) :
    (handleCorrectNote song s now).lastNoteTime = now := by
  unfold handleCorrectNote
  rw [if_neg h]
  dsimp only
  split <;> rfl

theorem handleCorrectNote_index (song : List String) (s : TutorState) (now : ℤ) :
    (handleCorrectNote song s now).currentIndex = s.currentIndex ∨
    ((handleCorrectNote song s now).currentIndex = s.currentIndex + 1 ∧
     500 ≤ now - s.lastNoteTime ∧
     (handleCorrectNote song s now).lastNoteTime = now ∧
     (handleCorrectNote song s now).requireSilence =
       (if s.currentIndex + 1 < song.length ∧
           song.getD (s.currentIndex + 1) "" = song.getD s.currentIndex ""
        then true else false)) := by
  unfold handleCorrectNote
  by_cases hdb : now - s.lastNoteTime < 500
  · rw [if_pos hdb]
    exact Or.inl rfl
  · rw [if_neg hdb]
    dsimp only
    split
    · exact Or.inr ⟨rfl, by omega, rfl, rfl⟩
    · exact Or.inl rfl

theorem checkPitch_cases (song : List String) (hd : ℤ) (cal : Bool) (s : TutorState)
    (r : Option DetectionFrame) (now : ℤ) :
    ((checkPitch song hd cal s r now).currentIndex = s.currentIndex ∧
     (checkPitch song hd cal s r now).lastNoteTime = s.lastNoteTime) ∨
    ∃ sB : TutorState, checkPitch song hd cal s r now = handleCorrectNote song sB now ∧
      sB.currentIndex = s.currentIndex ∧
      sB.requireSilence = s.requireSilence ∧ sB.lastNoteTime = s.lastNoteTime := by
  unfold checkPitch
  split
  · exact Or.inl ⟨rfl, rfl⟩
  · split
    · exact Or.inl ⟨rfl, rfl⟩
    · split
      · dsimp only
        split
        · split
          · exact Or.inl ⟨rfl, rfl⟩
          · split
            · exact Or.inr ⟨_, rfl, rfl, rfl, rfl⟩
            · exact Or.inl ⟨rfl, rfl⟩
        · exact Or.inl ⟨rfl, rfl⟩
      · dsimp only
        split
        · exact Or.inl ⟨rfl, rfl⟩
        · exact Or.inl ⟨rfl, rfl⟩

theorem checkPitch_silence_preserved (song : List String) (hd : ℤ) (s : TutorState)
    (r : Option DetectionFrame) (now : ℤ)
    (hs : s.requireSilence = true)
    (hr : ∀ fr, r = some fr → fr.note ≠ "") :
    (checkPitch song hd false s r now).requireSilence = true ∧
    (checkPitch song hd false s r now).currentIndex = s.currentIndex := by
  unfold checkPitch
  split
  · exact ⟨hs, rfl⟩
  · split
    · exact ⟨hs, rfl⟩
    · rename_i fr
      split
      · dsimp only
        split
        · exact ⟨hs, rfl⟩
        · exact ⟨hs, rfl⟩
      · rename_i hnote
        exact absurd (not_not.mp hnote) (hr fr rfl)

theorem runTutor_silence (song : List String) (hd : ℤ) :
    ∀ (trace : List (Option DetectionFrame × ℤ)) (s : TutorState),
      s.requireSilence = true →
      (∀ p ∈ trace, ∀ fr, p.1 = some fr → fr.note ≠ "") →
      (runTutor song hd false s trace).requireSilence = true ∧
      (runTutor song hd false s trace).currentIndex = s.currentIndex
  | [], s, hs, _ => ⟨hs, rfl⟩
  | (r, now) :: rest, s, hs, htr => by
    simp only [runTutor]
    have hstep := checkPitch_silence_preserved song hd s r now hs
      (fun fr hfr => htr (r, now) (List.mem_cons_self _ _) fr hfr)
    have ih := runTutor_silence song hd rest _ hstep.1
      (fun p hp => htr p (List.mem_cons_of_mem _ hp))
    exact ⟨ih.1, ih.2.trans hstep.2⟩

/-! ## Claim C7 -/

/-- C7 (confirmed): the advance handler is debounced — a call made less than
500 ms after the previous successful advance returns the tutor state
unchanged; a call that changes anything happened at least 500 ms after the
recorded advance time and stamps the current time; and every `checkPitch`
tick either leaves the advance timestamp untouched or performs an advance at
least 500 ms after it, stamping its own time.  Hence two consecutive
successful advances are separated by at least 500 ms. -/
theorem claim_C7 (song : List String) (s : TutorState) (now : ℤ) :
    (now - s.lastNoteTime < 500 → handleCorrectNote song s now = s) ∧
    (handleCorrectNote song s now ≠ s →
       500 ≤ now - s.lastNoteTime ∧ (handleCorrectNote song s now).lastNoteTime = now) ∧
    (∀ (hd : ℤ) (cal : Bool) (r : Option DetectionFrame),
       (checkPitch song hd cal s r now).lastNoteTime = s.lastNoteTime ∨
       (500 ≤ now - s.lastNoteTime ∧ (checkPitch song hd cal s r now).lastNoteTime = now)) := by
  refine ⟨handleCorrectNote_debounce song s now, ?_, ?_⟩
  · intro hne
    by_cases hdb : now - s.lastNoteTime < 500
    · exact absurd (handleCorrectNote_debounce song s now hdb) hne
    · exact ⟨by omega, handleCorrectNote_success song s now hdb⟩
  · intro hd cal r
    rcases checkPitch_cases song hd cal s r now with ⟨-, h⟩ | ⟨sB, hEq, -, -, hBt⟩
    · exact Or.inl h
    · rw [hEq]
      by_cases hdb : now - sB.lastNoteTime < 500
      · rw [handleCorrectNote_debounce song sB now hdb]
        exact Or.inl hBt
      · exact Or.inr ⟨by omega, handleCorrectNote_success song sB now hdb⟩

/-- Witness for C7: a call 100 ms after the last advance is a no-op. -/
theorem claim_C7_witness :
    handleCorrectNote ["C4"] initialTutorState 100 = initialTutorState :=
  (claim_C7 ["C4"] initialTutorState 100).1 (by decide)

/-! ## Claim C6 -/

/-- C6 (confirmed): when two consecutive song notes are equal, any
`checkPitch` tick that advances the tutor from index `i` to `i + 1` leaves
`requireSilence` set; from there, no sequence of ticks in which every
delivered frame has a non-empty note can advance past `i + 1` (the flag is
cleared only by an empty-note frame); and while `requireSilence` is set a
frame with a non-empty note — matching or not — never starts the hold timer
and never advances. -/
theorem claim_C6 (song : List String) (i : ℕ) (hd : ℤ) (s : TutorState)
    (r : Option DetectionFrame) (now : ℤ)
    (hi : i + 1 < song.length)
    (heq : song.getD i "" = song.getD (i + 1) "")
    (hidx : s.currentIndex = i)
    (hadv : (checkPitch song hd false s r now).currentIndex = i + 1) :
    (checkPitch song hd false s r now).requireSilence = true ∧
    (∀ trace : List (Option DetectionFrame × ℤ),
       (∀ p ∈ trace, ∀ fr, p.1 = some fr → fr.note ≠ "") →
       (runTutor song hd false (checkPitch song hd false s r now) trace).currentIndex
         = i + 1) ∧
    (∀ (s2 : TutorState) (fr2 : DetectionFrame) (now2 : ℤ),
       s2.requireSilence = true → s2.isListening = true → fr2.note ≠ "" →
       (checkPitch song hd false s2 (some fr2) now2).holdStart = none ∧
       (checkPitch song hd false s2 (some fr2) now2).currentIndex = s2.currentIndex) := by
  have hsil : (checkPitch song hd false s r now).requireSilence = true := by
    rcases checkPitch_cases song hd false s r now with ⟨hI, -⟩ | ⟨sB, hEq, hB1, hB2, -⟩
    · rw [hidx] at hI
      omega
    · rw [hEq] at hadv ⊢
      rcases handleCorrectNote_index song sB now with hI | ⟨hI1, -, -, hI4⟩
      · rw [hB1, hidx] at hI
        omega
      · rw [hI4, hB1, hidx]
        rw [if_pos ⟨hi, heq.symm⟩]
  refine ⟨hsil, ?_, ?_⟩
  · intro trace htr
    have hrun := runTutor_silence song hd trace _ hsil htr
    rw [hrun.2]
    exact hadv
  · intro s2 fr2 now2 hrs hlis hnote
    have hcondL : ¬ ¬ (s2.isListening = true) := by
      rw [hlis]
      simp
    unfold checkPitch
    rw [if_neg hcondL]
    dsimp only
    rw [if_pos hnote]
    by_cases hm : ¬ (false : Bool) = true ∧ song.get? s2.currentIndex = some fr2.note
    · rw [if_pos hm]
      rw [if_pos (show ({ s2 with detectedNote := fr2.note } : TutorState).requireSilence
        = true from hrs)]
      exact ⟨rfl, rfl⟩
    · rw [if_neg hm]
      exact ⟨rfl, rfl⟩

/-- The C4 frame used by the duplicate-note witness. -/
def c4Frame : DetectionFrame :=
  { note := "C4", frequency := 26163/100, clarity := 9/10, volume := 1/100 }

/-- A tutor state in which the hold timer has been running for 500 ms. -/
def tutorWitnessState : TutorState :=
  { initialTutorState with holdStart := some 100 }

/-- Witness for C6: on the song `[C4, C4]`, a tick at time 600 completes the
hold and advances to index 1 with `requireSilence` set; a further C4 frame
neither advances nor starts the hold timer. -/
theorem claim_C6_witness :
    (checkPitch ["C4", "C4"] 100 false tutorWitnessState (some c4Frame) 600).requireSilence
      = true ∧
    (runTutor ["C4", "C4"] 100 false
       (checkPitch ["C4", "C4"] 100 false tutorWitnessState (some c4Frame) 600)
       [(some c4Frame, 700)]).currentIndex = 1 ∧
    (checkPitch ["C4", "C4"] 100 false
       (checkPitch ["C4", "C4"] 100 false tutorWitnessState (some c4Frame) 600)
       (some c4Frame) 700).holdStart = none := by
  have T := claim_C6 ["C4", "C4"] 0 100 tutorWitnessState (some c4Frame) 600
    (by decide) (by decide) (by with_unfolding_all decide) (by with_unfolding_all decide)
  refine ⟨T.1, T.2.1 [(some c4Frame, 700)] ?_, ?_⟩
  · intro p hp fr hfr
    rw [List.mem_singleton] at hp
    subst hp
    have hfr2 : fr = c4Frame := (Option.some.inj hfr).symm
    rw [hfr2]
    decide
  · exact (T.2.2 (checkPitch ["C4", "C4"] 100 false tutorWitnessState (some c4Frame) 600)
      c4Frame 700 T.1 (by with_unfolding_all decide) (by decide)).1

/-! ## Helper lemmas: the NSDF peak picker -/

theorem peakAt_eq_some {nsdf : List ℚ} {minP i : ℕ} {p : NsdfPeak}
    (h : peakAt nsdf minP i = some p) :
    nsdf.getD (i - 1) 0 < nsdf.getD i 0 ∧
    nsdf.getD (i + 1) 0 < nsdf.getD i 0 ∧
    1/5 < nsdf.getD i 0 ∧
    p.period = (minP : ℚ) + (i : ℚ) +
      (1/2) * (nsdf.getD (i - 1) 0 - nsdf.getD (i + 1) 0) /
        (nsdf.getD (i - 1) 0 - 2 * nsdf.getD i 0 + nsdf.getD (i + 1) 0) ∧
    p.value = nsdf.getD i 0 -
      (1/4) * (nsdf.getD (i - 1) 0 - nsdf.getD (i + 1) 0) *
        ((1/2) * (nsdf.getD (i - 1) 0 - nsdf.getD (i + 1) 0) /
          (nsdf.getD (i - 1) 0 - 2 * nsdf.getD i 0 + nsdf.getD (i + 1) 0)) := by
  unfold peakAt at h
  dsimp only at h
  split at h
  · rename_i hcond
    have hp := (Option.some.inj h).symm
    exact ⟨hcond.1, hcond.2.1, hcond.2.2, by rw [hp], by rw [hp]⟩
  · exact absurd h (by simp)

theorem interp_value_ge {a b g : ℚ} (ha : a < b) (hg : g < b) :
    b ≤ b - (1/4) * (a - g) * ((1/2) * (a - g) / (a - 2*b + g)) := by
  have hX : (1/4) * (a - g) * ((1/2) * (a - g) / (a - 2*b + g)) =
      (a - g)^2 / (a - 2*b + g) * (1/8) := by ring
  have h2 : (a - g)^2 / (a - 2*b + g) ≤ 0 :=
    div_nonpos_of_nonneg_of_nonpos (sq_nonneg _) (by linarith)
  linarith

theorem interp_offset_lt {a b g : ℚ} (ha : a < b) (hg : g < b) :
    (1/2) * (a - g) / (a - 2*b + g) < 1/2 := by
  have hD : a - 2*b + g < 0 := by linarith
  rw [div_lt_iff_of_neg hD]
  linarith

theorem interp_offset_gt {a b g : ℚ} (ha : a < b) (hg : g < b) :
    -(1/2) < (1/2) * (a - g) / (a - 2*b + g) := by
  have hD : a - 2*b + g < 0 := by linarith
  rw [lt_div_iff_of_neg hD]
  linarith

theorem peaksOf_value_gt (buffer : List ℚ) (sr : ℚ) :
    ∀ p ∈ peaksOf buffer sr, 1/5 < p.value := by
  intro p hp
  unfold peaksOf at hp
  rw [List.mem_filterMap] at hp
  obtain ⟨i, -, hpk⟩ := hp
  obtain ⟨h1, h2, h3, -, hval⟩ := peakAt_eq_some hpk
  rw [hval]
  exact lt_of_lt_of_le h3 (interp_value_ge h1 h2)

theorem peak_period_lt {nsdf : List ℚ} {minP i j : ℕ} {p q : NsdfPeak}
    (hij : i < j) (hp : peakAt nsdf minP i = some p) (hq : peakAt nsdf minP j = some q) :
    p.period < q.period := by
  obtain ⟨ha1, ha2, -, hperP, -⟩ := peakAt_eq_some hp
  obtain ⟨hb1, hb2, -, hperQ, -⟩ := peakAt_eq_some hq
  by_cases hadj : j = i + 1
  · subst hadj
    exfalso
    have hidx : (i + 1) - 1 = i := by omega
    rw [hidx] at hb1
    linarith
  · have hj2 : i + 2 ≤ j := by omega
    rw [hperP, hperQ]
    have hup := interp_offset_lt ha1 ha2
    have hlo := interp_offset_gt hb1 hb2
    have hcast : (i : ℚ) + 2 ≤ (j : ℚ) := by exact_mod_cast hj2
    linarith

theorem peaksOf_pairwise (buffer : List ℚ) (sr : ℚ) :
    List.Pairwise (fun p q : NsdfPeak => p.period < q.period) (peaksOf buffer sr) := by
  unfold peaksOf
  rw [List.pairwise_filterMap]
  have hbase : List.Pairwise (· < ·)
      ((List.range ((nsdfList buffer sr).length - 2)).map (· + 1)) :=
    List.Pairwise.map _ (fun a b h => by omega) (List.pairwise_lt_range _)
  refine hbase.imp ?_
  intro i j hij p hp q hq
  rw [Option.mem_def] at hp hq
  exact peak_period_lt hij hp hq

theorem foldl_max_value_le : ∀ (l : List NsdfPeak) (init : ℚ),
    init ≤ l.foldl (fun m p => max m p.value) init ∧
    ∀ p ∈ l, p.value ≤ l.foldl (fun m p => max m p.value) init
  | [], init => ⟨le_refl _, by simp⟩
  | e :: t, init => by
    rw [List.foldl_cons]
    have ih := foldl_max_value_le t (max init e.value)
    refine ⟨le_trans (le_max_left _ _) ih.1, ?_⟩
    intro p hp
    rcases List.mem_cons.mp hp with hp | hp
    · subst hp
      exact le_trans (le_max_right _ _) ih.1
    · exact ih.2 p hp

theorem foldl_max_value_cases : ∀ (l : List NsdfPeak) (init : ℚ),
    l.foldl (fun m p => max m p.value) init = init ∨
    ∃ p ∈ l, l.foldl (fun m p => max m p.value) init = p.value
  | [], init => Or.inl rfl
  | e :: t, init => by
    rw [List.foldl_cons]
    rcases foldl_max_value_cases t (max init e.value) with h2 | ⟨p, hp, h2⟩
    · rcases max_choice init e.value with h3 | h3
      · exact Or.inl (by rw [h2, h3])
      · exact Or.inr ⟨e, List.mem_cons_self _ _, by rw [h2, h3]⟩
    · exact Or.inr ⟨p, List.mem_cons_of_mem _ hp, h2⟩

/-! ## Claim C4 -/

/-- C4 (confirmed): for every window in which the peak scan finds at least
one peak, the peaks are in strictly ascending refined-period order; with `M`
the maximum refined value, some peak attains `M` and all are bounded by it;
the returned estimate is built from the *first* peak (in that ascending
order) whose refined value is at least `0.8·M`, with frequency
`sampleRate / period` clamped to `[100, 1200]` and clarity the refined value
clamped to `[0, 1]`. -/
theorem claim_C4 (buffer : List ℚ) (sr : ℚ) (hne : peaksOf buffer sr ≠ []) :
    List.Pairwise (fun p q : NsdfPeak => p.period < q.period) (peaksOf buffer sr) ∧
    ∃ p0 rest, peaksOf buffer sr = p0 :: rest ∧
      (∀ p ∈ peaksOf buffer sr, p.value ≤ maxRefined (p0 :: rest) p0) ∧
      (∃ p ∈ peaksOf buffer sr, p.value = maxRefined (p0 :: rest) p0) ∧
      ∃ q, (p0 :: rest).find?
             (fun p => decide (maxRefined (p0 :: rest) p0 * (8/10) ≤ p.value)) = some q ∧
        detectPitchNSDF buffer sr =
          (max 100 (min (sr / q.period) 1200), max 0 (min 1 q.value)) := by
  refine ⟨peaksOf_pairwise buffer sr, ?_⟩
  obtain ⟨p0, rest, hp⟩ : ∃ p0 rest, peaksOf buffer sr = p0 :: rest := by
    cases hlist : peaksOf buffer sr with
    | nil => exact absurd hlist hne
    | cons a b => exact ⟨a, b, rfl⟩
  refine ⟨p0, rest, hp, ?_, ?_, ?_⟩
  · intro p hpm
    rw [hp] at hpm
    exact (foldl_max_value_le (p0 :: rest) p0.value).2 p hpm
  · rcases foldl_max_value_cases (p0 :: rest) p0.value with hcase | ⟨p, hpm, hcase⟩
    · exact ⟨p0, by rw [hp]; exact List.mem_cons_self _ _,
        by unfold maxRefined; rw [hcase]⟩
    · exact ⟨p, by rw [hp]; exact hpm, by unfold maxRefined; rw [hcase]⟩
  · -- the maximum is attained and positive, so the filtered search succeeds
    have hattain : ∃ p ∈ (p0 :: rest), p.value = maxRefined (p0 :: rest) p0 := by
      rcases foldl_max_value_cases (p0 :: rest) p0.value with hcase | ⟨p, hpm, hcase⟩
      · exact ⟨p0, List.mem_cons_self _ _, by unfold maxRefined; rw [hcase]⟩
      · exact ⟨p, hpm, by unfold maxRefined; rw [hcase]⟩
    obtain ⟨pm, hpmMem, hpmVal⟩ := hattain
    have hpos : 1/5 < maxRefined (p0 :: rest) p0 := by
      rw [← hpmVal]
      exact peaksOf_value_gt buffer sr pm (by rw [hp]; exact hpmMem)
    have hsat : ∃ x ∈ (p0 :: rest),
        (fun p => decide (maxRefined (p0 :: rest) p0 * (8/10) ≤ p.value)) x = true := by
      refine ⟨pm, hpmMem, ?_⟩
      rw [decide_eq_true_iff, hpmVal]
      nlinarith
    have hsome := List.find?_isSome.mpr hsat
    obtain ⟨q, hq⟩ := Option.isSome_iff_exists.mp hsome
    refine ⟨q, hq, ?_⟩
    simp only [detectPitchNSDF, hp]
    rw [hq, Option.getD_some]

/-- A 16-sample window with an exact period of 8 at sample rate 4800. -/
def nsdfWitnessBuffer : List ℚ :=
  [0, 1, 1, 1, 0, -1, -1, -1, 0, 1, 1, 1, 0, -1, -1, -1]

/-- Witness for C4: the 16-sample periodic window yields a non-empty peak
list, to which the theorem applies. -/
theorem claim_C4_witness :
    peaksOf nsdfWitnessBuffer 4800 ≠ [] ∧
    List.Pairwise (fun p q : NsdfPeak => p.period < q.period)
      (peaksOf nsdfWitnessBuffer 4800) :=
  ⟨by with_unfolding_all decide,
   (claim_C4 nsdfWitnessBuffer 4800 (by with_unfolding_all decide)).1⟩

end LyreHero
